import Mathlib

/-!
Verification of the generalization driver of the souper repository
(`tools/generalize.cpp`) against its natural-language specification.

The development shallowly embeds the data model (`Inst` DAG nodes,
`InstMapping`, `ParsedReplacement`) and the search procedures of
`generalize.cpp`: the symbolization driver's scoring/ranking/emission
stage (`SymbolizeAndGeneralize`, lines 177-206), the precondition
application of `Generalize` (lines 67-91), the reducer
(`collectInsts`, `ReduceRec`, `ReduceAndGeneralize`), the per-opcode
width rule `InferWidth`, and the width generalizer (`CloneInst`,
`GeneralizeBitWidth`).

The external solver capability (`Solver::isValid`,
`Solver::abstractPrecondition`) and the instruction-context helpers
(`getInstCopy`, `createVar`, `getVariablesFor`) live outside the
sources provided; they are modelled from the specification where
needed and otherwise abstracted as parameters.

Machine integers: bit masks are `Nat` values bounded by `2 ^ width`
(an LLVM `APInt` of that width); the C++ `unsigned`/`int` utility
arithmetic never overflows in range because each summand is at most
the corresponding width, so plain `Nat` arithmetic is exact.
-/

namespace Souper

/-- Operator kinds of the souper IR that appear in the sources
(`Inst::Kind` minus the two leaf kinds, which are constructors of
`Inst` below). -/
inductive InstKind where
  | and | or | xor | sub | mul | add
  | slt | sle | ult | ule
  | shl | lshr | ashr | udiv | sdiv | urem | srem
  | eq | ne | select | zext | sext | trunc | phi | freeze
  | ctpop | cttz | ctlz
deriving DecidableEq, Repr

/-- A node of a rewrite-rule's instruction DAG: leaf kinds `Var`
(name and width) and `Const` (value and width), and interior nodes
with a kind, a width and an ordered operand list.  Because the
`InstContext` interns nodes, pointer equality of `Inst *` in the
source coincides with structural equality here. -/
inductive Inst where
  | var (name : String) (width : Nat)
  | const (val : Nat) (width : Nat)
  | node (k : InstKind) (width : Nat) (ops : List Inst)
deriving Repr

mutual

/-- Structural (boolean) equality of nodes; under interning this is
pointer equality of the C++ `Inst *`. -/
def Inst.beq : Inst → Inst → Bool
  | .var n w, .var n' w' => n == n' && w == w'
  | .const v w, .const v' w' => v == v' && w == w'
  | .node k w ops, .node k' w' ops' => k == k' && w == w' && Inst.beqList ops ops'
  | _, _ => false

/-- Pointwise structural equality of operand lists. -/
def Inst.beqList : List Inst → List Inst → Bool
  | [], [] => true
  | a :: as, b :: bs => Inst.beq a b && Inst.beqList as bs
  | _, _ => false

end

mutual

theorem Inst.beq_iff : (a b : Inst) → (Inst.beq a b = true ↔ a = b)
  | .var _ _, .var _ _ => by simp [Inst.beq]
  | .var _ _, .const _ _ => by simp [Inst.beq]
  | .var _ _, .node .. => by simp [Inst.beq]
  | .const _ _, .var _ _ => by simp [Inst.beq]
  | .const _ _, .const _ _ => by simp [Inst.beq]
  | .const _ _, .node .. => by simp [Inst.beq]
  | .node .., .var _ _ => by simp [Inst.beq]
  | .node .., .const _ _ => by simp [Inst.beq]
  | .node k w ops, .node k' w' ops' => by
      simp [Inst.beq, Inst.beqList_iff ops ops', and_assoc]

theorem Inst.beqList_iff : (as bs : List Inst) → (Inst.beqList as bs = true ↔ as = bs)
  | [], [] => by simp [Inst.beqList]
  | [], _ :: _ => by simp [Inst.beqList]
  | _ :: _, [] => by simp [Inst.beqList]
  | a :: as, b :: bs => by
      simp [Inst.beqList, Inst.beq_iff a b, Inst.beqList_iff as bs]

end

instance : DecidableEq Inst := fun a b => decidable_of_iff _ (Inst.beq_iff a b)

/-- Width field of a node (`I->Width`). -/
def Inst.width : Inst → Nat
  | .var _ w => w
  | .const _ w => w
  | .node _ w _ => w

/-- Test `I->K == Inst::Var`. -/
def Inst.isVar : Inst → Bool
  | .var _ _ => true
  | _ => false

/-- Test `I->K == Inst::Const`. -/
def Inst.isConst : Inst → Bool
  | .const _ _ => true
  | _ => false

mutual

/-- The set of nodes reachable from a root, as a list in preorder
(possibly with duplicates); `collectInsts` in the source gathers
exactly this set of distinct nodes into its result set. -/
def collectInsts : Inst → List Inst
  | .var n w => [.var n w]
  | .const v w => [.const v w]
  | .node k w ops => .node k w ops :: collectInstsList ops

/-- Reachable nodes of each operand, concatenated. -/
def collectInstsList : List Inst → List Inst
  | [] => []
  | o :: os => collectInsts o ++ collectInstsList os

end

mutual

/-- Modelled from the spec: `getInstCopy` with a one-entry
instruction cache `{tgt ↦ repl}` (spec section 4.1, `cloneWithSubstitution`):
walk the DAG, replace every node equal to `tgt` by `repl`, rebuild
(re-intern) interior nodes whose operands changed, and leave
unchanged sub-DAGs unchanged. -/
def replaceInst (tgt repl : Inst) : Inst → Inst
  | .var n w => if Inst.var n w = tgt then repl else .var n w
  | .const v w => if Inst.const v w = tgt then repl else .const v w
  | .node k w ops =>
      if Inst.node k w ops = tgt then repl
      else .node k w (replaceInstList tgt repl ops)

/-- Substitution mapped across an operand list. -/
def replaceInstList (tgt repl : Inst) : List Inst → List Inst
  | [] => []
  | o :: os => replaceInst tgt repl o :: replaceInstList tgt repl os

end

theorem replaceInstList_eq_map (tgt repl : Inst) :
    ∀ l : List Inst, replaceInstList tgt repl l = l.map (replaceInst tgt repl)
  | [] => by simp [replaceInstList]
  | o :: os => by simp [replaceInstList, replaceInstList_eq_map tgt repl os]

/-- An `InstMapping`: the ordered pair `(LHS, RHS)` of a rewrite;
also the shape of a path condition. -/
structure InstMapping where
  LHS : Inst
  RHS : Inst
deriving DecidableEq, Repr

/-- A `ParsedReplacement`: the rewrite together with its path
conditions and block path conditions (each block path condition is
represented by its `PC` component, the only part the procedures
here read or rewrite). -/
structure ParsedReplacement where
  Mapping : InstMapping
  PCs : List InstMapping
  BPCs : List InstMapping
deriving DecidableEq, Repr

/-- The nodes reachable from every component of a rule: `ReduceRec`
collects `Mapping.LHS`, `Mapping.RHS`, both sides of every path
condition and of every block path condition into one set. -/
def ruleInsts (r : ParsedReplacement) : List Inst :=
  collectInsts r.Mapping.LHS ++ collectInsts r.Mapping.RHS
    ++ r.PCs.flatMap (fun pc => collectInsts pc.LHS ++ collectInsts pc.RHS)
    ++ r.BPCs.flatMap (fun bpc => collectInsts bpc.LHS ++ collectInsts bpc.RHS)

/-- The reachable-node count of a rule: the number of distinct
interned nodes reachable from its components (`Insts.size()` in
`ReduceRec`). -/
def nodeCount (r : ParsedReplacement) : Nat :=
  (ruleInsts r).toFinset.card

/-- Substitution applied to every component of a rule, as the body of
the `ReduceRec` loop does with `getInstCopy` on the mapping, the
`PCs` and the `BPCs`. -/
def replaceRule (tgt repl : Inst) (r : ParsedReplacement) : ParsedReplacement where
  Mapping := ⟨replaceInst tgt repl r.Mapping.LHS, replaceInst tgt repl r.Mapping.RHS⟩
  PCs := r.PCs.map fun pc => ⟨replaceInst tgt repl pc.LHS, replaceInst tgt repl pc.RHS⟩
  BPCs := r.BPCs.map fun bpc => ⟨replaceInst tgt repl bpc.LHS, replaceInst tgt repl bpc.RHS⟩

/-- Modelled from the spec: the solver capability's validity query
(spec section 6, `isValid`): it answers `some valid` or reports an
error condition (`none`), distinct from answering invalid. -/
def SolverOracle := ParsedReplacement → Option Bool

/-- The mutable state threaded through `ReduceRec`: the accumulated
results vector, the do-not-repeat set (the source keys it by the
printed canonical text of a rule; canonical printing separates
structurally distinct rules, so it is modelled by the rules
themselves), and the fresh-variable counter (the `static int varnum`
of the source). -/
structure RState where
  results : List ParsedReplacement
  dnr : List ParsedReplacement
  varnum : Nat
deriving DecidableEq, Repr

/-- The flag the source reads after a validity query: `bool Valid` is
set by the solver when the query is answered, and is left with an
indeterminate value (modelled by `uninit`) when the solver reports an
error — the source only prints the error message and falls through. -/
def validFlag (S : SolverOracle) (uninit : Bool) (q : ParsedReplacement) : Bool :=
  (S q).getD uninit

/-- One pass of the `ReduceRec` loop body over the collected nodes:
skip the two mapping roots, variables and constants; otherwise build
the variant substituting the node by a fresh variable of the same
width, query the solver, and on a true flag record the variant and
recurse (through `recur`) on it. -/
def reduceLoop (S : SolverOracle) (uninit : Bool)
    (recur : ParsedReplacement → RState → RState)
    (input : ParsedReplacement) : List Inst → RState → RState
  | [], st => st
  | I :: rest, st =>
    if I = input.Mapping.LHS ∨ I = input.Mapping.RHS ∨ I.isVar ∨ I.isConst then
      reduceLoop S uninit recur input rest st
    else
      if validFlag S uninit
          (replaceRule I (.var ("newvar" ++ toString st.varnum) I.width) input) then
        reduceLoop S uninit recur input rest
          (recur (replaceRule I (.var ("newvar" ++ toString st.varnum) I.width) input)
            ⟨st.results ++ [replaceRule I (.var ("newvar" ++ toString st.varnum) I.width) input],
             st.dnr, st.varnum + 1⟩)
      else
        reduceLoop S uninit recur input rest ⟨st.results, st.dnr, st.varnum + 1⟩

/-- `ReduceRec`: return if the rule was already explored (the
do-not-repeat set), otherwise record it as explored, collect the
distinct reachable nodes, stop at the base case of at most one node,
and otherwise run the substitution loop over the collected nodes.
The source recursion terminates because each recorded variant has
strictly fewer interior nodes; the embedding makes the recursion
depth explicit as `fuel`. -/
def reduceRec (S : SolverOracle) (uninit : Bool) :
    Nat → ParsedReplacement → RState → RState
  | 0, _, st => st
  | fuel + 1, input, st =>
    if input ∈ st.dnr then st
    else
      if ((ruleInsts input).dedup).length ≤ 1 then ⟨st.results, input :: st.dnr, st.varnum⟩
      else
        reduceLoop S uninit (reduceRec S uninit fuel) input
          ((ruleInsts input).dedup) ⟨st.results, input :: st.dnr, st.varnum⟩

/-- `ReduceAndGeneralize`: check the input's validity once up front
(on a solver error the source prints the message and reads the
indeterminate flag), abort with no results when the flag is false,
and otherwise run `ReduceRec` from an empty state, returning the
recorded results vector. -/
def reduceAndGeneralize (S : SolverOracle) (uninit : Bool)
    (fuel : Nat) (input : ParsedReplacement) : List ParsedReplacement :=
  if validFlag S uninit input then
    (reduceRec S uninit fuel input ⟨[], [], 0⟩).results
  else
    []

/-! Scoring, ranking and emission stage of `SymbolizeAndGeneralize`
(source lines 177-206).  The stage consumes the per-guess synthesis
results (`Guesses`, where a null pointer marks a guess whose
precondition inference failed) and the per-guess known-bits
precondition disjunctions (`Preconditions`). -/

/-- Fuel-indexed population count; the fuel is an upper bound on the
value, so `popCountAux n n` counts exactly the 1 bits of `n`. -/
def popCountAux : Nat → Nat → Nat
  | 0, _ => 0
  | fuel + 1, n => if n = 0 then 0 else n % 2 + popCountAux fuel (n / 2)

/-- Modelled from the spec: `llvm::APInt::countPopulation`, the number
of 1 bits of the mask value. -/
def popCount (n : Nat) : Nat := popCountAux n n

/-- Modelled from the spec: an `llvm::KnownBits` of a given bit width:
a known-zeros mask and a known-ones mask, each a `width`-bit value
(hence with at most `width` set bits, so the `unsigned` subtractions
`W - countPopulation` in the source never wrap and equal the `Nat`
subtractions here). -/
structure KnownBits where
  width : Nat
  zero : Nat
  one : Nat
  hzero : zero < 2 ^ width
  hone : one < 2 ^ width

/-- Contribution of one constrained variable to the utility:
`(W - Zero.countPopulation()) + (W - One.countPopulation())`. -/
def kbUtility (kb : KnownBits) : Nat :=
  (kb.width - popCount kb.zero) + (kb.width - popCount kb.one)

/-- Sum of the per-variable contributions over every disjunct and
every constrained variable of a precondition (the nested accumulation
loop of the source). -/
def preUtility (pres : List (List (String × KnownBits))) : Nat :=
  (pres.map fun d => (d.map fun p => kbUtility p.2).sum).sum

/-- Utility of one scored candidate: `0` for a failed guess (null
pointer), the magic constant `1000` when the inferred precondition
list is empty, and otherwise the accumulated sum. -/
def candUtility (g : Option Inst) (pres : List (List (String × KnownBits))) : Nat :=
  match g with
  | none => 0
  | some _ => (if pres.isEmpty then 1000 else 0) + preUtility pres

/-- The utility vector, indexed like `Guesses`/`Preconditions`. -/
def utilities (gs : List (Option Inst))
    (ps : List (List (List (String × KnownBits)))) : List Nat :=
  (List.range gs.length).map fun i => candUtility (gs.getD i none) (ps.getD i [])

/-- The comparator of the index sort: `Utility[a] > Utility[b]`
orders indices by descending utility, so the sorted order is
non-ascending in utility, which is this relation. -/
def rankRel (us : List Nat) : Nat → Nat → Prop :=
  fun a b => us.getD a 0 ≥ us.getD b 0

instance (us : List Nat) : DecidableRel (rankRel us) :=
  fun a b => Nat.decLe (us.getD b 0) (us.getD a 0)

instance (us : List Nat) : IsTotal Nat (rankRel us) :=
  ⟨fun a b => Nat.le_total (us.getD b 0) (us.getD a 0)⟩

instance (us : List Nat) : IsTrans Nat (rankRel us) :=
  ⟨fun _ _ _ hab hbc => le_trans hbc hab⟩

/-- The index vector `Idx = [0, ..., n-1]` sorted by descending
utility (`std::sort` with the comparator above; the source comparator
is strict, so any order that is non-ascending in utility is a
possible outcome, and ties carry no specified order). -/
def rankIdx (gs : List (Option Inst))
    (ps : List (List (List (String × KnownBits)))) : List Nat :=
  List.insertionSort (rankRel (utilities gs ps)) (List.range gs.length)

/-- The indices whose candidates the emission loop pushes into
`Results`: traversing the sorted index vector, exactly those with an
empty precondition list and a non-null guess. -/
def emittedIdx (gs : List (Option Inst))
    (ps : List (List (List (String × KnownBits)))) : List Nat :=
  (rankIdx gs ps).filter fun i => (ps.getD i []).isEmpty && (gs.getD i none).isSome

/-! Precondition application of `Generalize` (source lines 67-91).
The procedure receives the abstract-precondition results and writes
them into the referenced variable nodes of the input in place
(`Pair.first->KnownOnes = ...`, `Pair.first->KnownZeros = ...`,
`Pair.first->Range = ...`), printing the rule after each disjunct. -/

/-- Modelled from the spec: the per-variable record of an interned
`Var` node — its structural fields (name, width) and its mutable
refinement-fact fields (known-ones mask, known-zeros mask, range).
The store maps each variable name to its record. -/
structure StoredInst where
  name : String
  width : Nat
  knownOnes : Nat
  knownZeros : Nat
  rangeLo : Nat
  rangeHi : Nat
deriving DecidableEq, Repr

/-- Write one known-bits disjunct into the store: for each pair in
turn the referenced variable's `KnownOnes`/`KnownZeros` fields are
assigned in place. -/
def applyKB (store : String → StoredInst) :
    List (String × KnownBits) → String → StoredInst
  | [] => store
  | p :: rest =>
    applyKB (fun y =>
      if y = p.1 then { store y with knownOnes := p.2.one, knownZeros := p.2.zero }
      else store y) rest

/-- Write the known-bits disjuncts in sequence (the print loop of the
source mutates across iterations, so the writes accumulate). -/
def applyKBs (store : String → StoredInst) :
    List (List (String × KnownBits)) → String → StoredInst
  | [] => store
  | d :: ds => applyKBs (applyKB store d) ds

/-- Write one constant-range disjunct into the store: for each pair
in turn the referenced variable's `Range` field is assigned in
place. -/
def applyCR (store : String → StoredInst) :
    List (String × (Nat × Nat)) → String → StoredInst
  | [] => store
  | p :: rest =>
    applyCR (fun y =>
      if y = p.1 then { store y with rangeLo := p.2.1, rangeHi := p.2.2 }
      else store y) rest

/-- Write the constant-range disjuncts in sequence. -/
def applyCRs (store : String → StoredInst) :
    List (List (String × (Nat × Nat))) → String → StoredInst
  | [] => store
  | d :: ds => applyCRs (applyCR store d) ds

/-- The overall effect of `Generalize` on the variable store: nothing
when the rule is unconditionally valid, otherwise the known-bits
disjuncts are written in sequence, and only when there are none, the
range disjuncts. -/
def generalizeFacts (store : String → StoredInst) (FoundWP : Bool)
    (KBResults : List (List (String × KnownBits)))
    (CRResults : List (List (String × (Nat × Nat)))) : String → StoredInst :=
  if FoundWP && KBResults.isEmpty && CRResults.isEmpty then store
  else if !KBResults.isEmpty then applyKBs store KBResults
  else if !CRResults.isEmpty then applyCRs store CRResults
  else store

/-! Width inference and bit-width generalization (source lines
246-296). -/

/-- `InferWidth`: the fixed per-opcode width rule.  `none` models the
`llvm_unreachable("Unimplemented ...")` fail-fast on every operator
outside the ten handled ones (and the out-of-range `Ops[0]` access on
an empty operand list). -/
def InferWidth (K : InstKind) (Ops : List Inst) : Option Nat :=
  match K with
  | .and | .or | .xor | .sub | .mul | .add =>
    match Ops with
    | [] => none
    | a :: _ => some a.width
  | .slt | .sle | .ult | .ule => some 1
  | _ => none

/-- Lookup in the width map with the default value `0`, as the
`std::map` subscript operator yields for an absent key. -/
def widthLookup (wm : List (Inst × Nat)) (i : Inst) : Nat :=
  match wm.find? (fun p => decide (p.1 = i)) with
  | some p => p.2
  | none => 0

mutual

/-- `CloneInst`: rebuild a node with variables re-created at their
mapped width and interior widths re-derived by `InferWidth`; `none`
models the `llvm_unreachable("Const")` fail-fast on a constant leaf
(and a failing `InferWidth`). -/
def CloneInst (wm : List (Inst × Nat)) : Inst → Option Inst
  | .var n w => some (.var n (widthLookup wm (.var n w)))
  | .const _ _ => none
  | .node k _ ops =>
    match CloneInstList wm ops with
    | none => none
    | some ops' =>
      match InferWidth k ops' with
      | none => none
      | some w' => some (.node k w' ops')

/-- `CloneInst` mapped over an operand list, failing if any operand
fails. -/
def CloneInstList (wm : List (Inst × Nat)) : List Inst → Option (List Inst)
  | [] => some []
  | o :: os =>
    match CloneInst wm o, CloneInstList wm os with
    | some a, some as => some (a :: as)
    | _, _ => none

end

/-- Modelled from the spec: `IC.getVariablesFor` — the distinct `Var`
nodes reachable from a root. -/
def getVariablesFor (t : Inst) : List Inst :=
  ((collectInsts t).filter Inst.isVar).dedup

mutual

/-- Whether a constant leaf occurs anywhere under a root. -/
def hasConst : Inst → Bool
  | .var _ _ => false
  | .const _ _ => true
  | .node _ _ ops => hasConstList ops

/-- Whether a constant leaf occurs under any member of a list. -/
def hasConstList : List Inst → Bool
  | [] => false
  | o :: os => hasConst o || hasConstList os

end

/-- The width loop of `GeneralizeBitWidth`: clone the two sides at
`count` consecutive widths starting from `start`, failing if any
clone fails. -/
def widthsLoop (v lhs rhs : Inst) : Nat → Nat → Option (List (Inst × Inst))
  | 0, _ => some []
  | count + 1, start =>
    match CloneInst [(v, start)] lhs, CloneInst [(v, start)] rhs,
        widthsLoop v lhs rhs count (start + 1) with
    | some l, some r, some rest => some ((l, r) :: rest)
    | _, _, _ => none

/-- `GeneralizeBitWidth`: collect the left-hand side's variables,
fail fast (the `assert`) unless there is exactly one, and print the
re-instantiated rule at each width from 1 to 63.  The solver argument
is taken, as in the source, and never consulted. -/
def GeneralizeBitWidth (S : SolverOracle) (input : ParsedReplacement) :
    Option (List (Inst × Inst)) :=
  match getVariablesFor input.Mapping.LHS with
  | [v] => widthsLoop v input.Mapping.LHS input.Mapping.RHS 63 1
  | _ => none

/-! Concrete fixtures used by the witness and counterexample
theorems. -/

/-- The 8-bit variable `x`. -/
def xVar : Inst := .var "x" 8

/-- The 8-bit variable `y`. -/
def yVar : Inst := .var "y" 8

/-- The 8-bit variable `z`. -/
def zVar : Inst := .var "z" 8

/-- The node `and x x`. -/
def andXX : Inst := .node .and 8 [xVar, xVar]

/-- The rule `and (and x x) x -> x`, which has one non-root interior
node and hence exactly one reduction variant. -/
def inputAnd3 : ParsedReplacement := ⟨⟨.node .and 8 [andXX, xVar], xVar⟩, [], []⟩

/-- The reduction variant of `inputAnd3` substituting `and x x`. -/
def variantAnd3 : ParsedReplacement :=
  ⟨⟨.node .and 8 [.var "newvar0" 8, xVar], xVar⟩, [], []⟩

/-- A solver that reports an error on every query. -/
def errOracle : SolverOracle := fun _ => none

/-- A solver that answers every query with valid. -/
def trueOracle : SolverOracle := fun _ => some true

/-- A solver that answers every query with invalid. -/
def falseOracle : SolverOracle := fun _ => some false

/-- The rule `and (or x y) (xor x y) -> z`, which has two non-root
interior nodes. -/
def inputTwo : ParsedReplacement :=
  ⟨⟨.node .and 8 [.node .or 8 [xVar, yVar], .node .xor 8 [xVar, yVar]], zVar⟩, [], []⟩

/-- The variant of `inputTwo` substituting its `or` node (the first
eligible node the loop reaches). -/
def variantTwoA : ParsedReplacement :=
  ⟨⟨.node .and 8 [.var "newvar0" 8, .node .xor 8 [xVar, yVar]], zVar⟩, [], []⟩

/-- The variant of `inputTwo` substituting its `xor` node (reached
after the `or` query, so with the second fresh name). -/
def variantTwoB : ParsedReplacement :=
  ⟨⟨.node .and 8 [.node .or 8 [xVar, yVar], .var "newvar1" 8], zVar⟩, [], []⟩

/-- A solver that validates `inputTwo`, errors on the variant that
substitutes the `or` node, validates the variant that substitutes the
`xor` node, and answers invalid elsewhere. -/
def oracleTwo : SolverOracle := fun r =>
  if r = inputTwo then some true
  else if r = variantTwoA then none
  else if r = variantTwoB then some true
  else some false

/-- Known bits of width 64 with no bit pinned. -/
def kbTop64 : KnownBits := ⟨64, 0, 0, by norm_num, by norm_num⟩

/-- Known bits of width 4 with no bit pinned. -/
def kbTop4 : KnownBits := ⟨4, 0, 0, by norm_num, by norm_num⟩

/-- Known bits of width 64 pinning bit 0 to one. -/
def kbPin : KnownBits := ⟨64, 0, 1, by norm_num, by norm_num⟩

/-- A conditional precondition of eight disjuncts, each constraining
one 64-bit variable with nothing pinned: its utility sum is
`8 * (64 + 64) = 1024`, exceeding the magic constant. -/
def presWide : List (List (String × KnownBits)) := List.replicate 8 [("x", kbTop64)]

/-- A conditional precondition with one narrow variable: its utility
sum is `4 + 4 = 8`. -/
def presNarrow : List (List (String × KnownBits)) := [[("x", kbTop4)]]

/-- Two surviving guesses. -/
def gsRank : List (Option Inst) := [some (.var "g0" 64), some (.var "g1" 64)]

/-- Candidate 0 unconditionally valid, candidate 1 conditional with
the wide precondition. -/
def psRank : List (List (List (String × KnownBits))) := [[], presWide]

/-- Candidate 0 unconditionally valid, candidate 1 conditional with
the narrow precondition. -/
def psSmall : List (List (List (String × KnownBits))) := [[], presNarrow]

/-- A store giving every variable name a fresh 64-bit record with no
facts attached. -/
def store0 : String → StoredInst := fun y => ⟨y, 64, 0, 0, 0, 0⟩

/-- A rule whose left-hand side has two variables. -/
def inputTwoVars : ParsedReplacement := ⟨⟨.node .add 8 [xVar, yVar], xVar⟩, [], []⟩

/-- A rule whose left-hand side contains a constant leaf. -/
def inputConst : ParsedReplacement := ⟨⟨.node .add 8 [xVar, .const 4 8], xVar⟩, [], []⟩

theorem mem_collectInstsList {x : Inst} :
    ∀ {l : List Inst}, x ∈ collectInstsList l ↔ ∃ o ∈ l, x ∈ collectInsts o
  | [] => by simp [collectInstsList]
  | o :: os => by
      simp [collectInstsList, List.mem_append, @mem_collectInstsList x os]

theorem self_mem_collectInsts : ∀ i : Inst, i ∈ collectInsts i
  | .var _ _ => by simp [collectInsts]
  | .const _ _ => by simp [collectInsts]
  | .node _ _ _ => by simp [collectInsts]

mutual

theorem collectInsts_replace_sub (tgt repl : Inst) (hrepl : collectInsts repl = [repl]) :
    ∀ (i x : Inst), x ∈ collectInsts (replaceInst tgt repl i) →
      x ∈ (collectInsts i).map (replaceInst tgt repl)
  | .var n w, x => by
      intro hx
      by_cases h : Inst.var n w = tgt
      · simp only [replaceInst, if_pos h, hrepl, List.mem_singleton] at hx
        subst hx
        simp [collectInsts, replaceInst, if_pos h]
      · simp only [replaceInst, if_neg h, collectInsts, List.mem_singleton] at hx
        subst hx
        simp [collectInsts, replaceInst, if_neg h]
  | .const v w, x => by
      intro hx
      by_cases h : Inst.const v w = tgt
      · simp only [replaceInst, if_pos h, hrepl, List.mem_singleton] at hx
        subst hx
        simp [collectInsts, replaceInst, if_pos h]
      · simp only [replaceInst, if_neg h, collectInsts, List.mem_singleton] at hx
        subst hx
        simp [collectInsts, replaceInst, if_neg h]
  | .node k w ops, x => by
      intro hx
      by_cases h : Inst.node k w ops = tgt
      · simp only [replaceInst, if_pos h, hrepl, List.mem_singleton] at hx
        subst hx
        refine List.mem_map.mpr ⟨Inst.node k w ops, self_mem_collectInsts _, ?_⟩
        simp [replaceInst, if_pos h]
      · simp only [replaceInst, if_neg h, collectInsts, List.mem_cons] at hx
        rcases hx with hx | hx
        · subst hx
          refine List.mem_map.mpr ⟨Inst.node k w ops, self_mem_collectInsts _, ?_⟩
          simp [replaceInst, if_neg h]
        · have := collectInstsList_replace_sub tgt repl hrepl ops x hx
          simp only [collectInsts, List.map_cons, List.mem_cons]
          exact Or.inr this

theorem collectInstsList_replace_sub (tgt repl : Inst) (hrepl : collectInsts repl = [repl]) :
    ∀ (l : List Inst) (x : Inst), x ∈ collectInstsList (replaceInstList tgt repl l) →
      x ∈ (collectInstsList l).map (replaceInst tgt repl)
  | [], x => by simp [replaceInstList, collectInstsList]
  | o :: os, x => by
      intro hx
      simp only [replaceInstList, collectInstsList, List.mem_append] at hx
      simp only [collectInstsList, List.map_append, List.mem_append]
      rcases hx with hx | hx
      · exact Or.inl (collectInsts_replace_sub tgt repl hrepl o x hx)
      · exact Or.inr (collectInstsList_replace_sub tgt repl hrepl os x hx)

end

theorem collectInsts_var (nm : String) (w : Nat) :
    collectInsts (Inst.var nm w) = [Inst.var nm w] := by
  simp [collectInsts]

/-- Every node of the substituted rule is the image of a node of the
original rule under the substitution map. -/
theorem mem_ruleInsts_replaceRule (tgt : Inst) (nm : String) (w : Nat)
    (r : ParsedReplacement) (x : Inst)
    (hx : x ∈ ruleInsts (replaceRule tgt (Inst.var nm w) r)) :
    x ∈ (ruleInsts r).map (replaceInst tgt (Inst.var nm w)) := by
  have hrepl := collectInsts_var nm w
  simp only [ruleInsts, replaceRule, List.mem_append, List.mem_flatMap,
    List.mem_map] at hx
  simp only [ruleInsts, List.map_append, List.mem_append]
  rcases hx with ((hx | hx) | hx) | hx
  · exact Or.inl (Or.inl (Or.inl (collectInsts_replace_sub _ _ hrepl _ _ hx)))
  · exact Or.inl (Or.inl (Or.inr (collectInsts_replace_sub _ _ hrepl _ _ hx)))
  · rcases hx with ⟨pc', ⟨pc, hpc, hpc'⟩, hxpc⟩
    subst hpc'
    simp only [List.mem_append] at hxpc
    refine Or.inl (Or.inr ?_)
    rw [List.map_flatMap]
    refine List.mem_flatMap.mpr ⟨pc, hpc, ?_⟩
    simp only [List.map_append, List.mem_append]
    rcases hxpc with hxpc | hxpc
    · exact Or.inl (collectInsts_replace_sub _ _ hrepl _ _ hxpc)
    · exact Or.inr (collectInsts_replace_sub _ _ hrepl _ _ hxpc)
  · rcases hx with ⟨bpc', ⟨bpc, hbpc, hbpc'⟩, hxbpc⟩
    subst hbpc'
    simp only [List.mem_append] at hxbpc
    refine Or.inr ?_
    rw [List.map_flatMap]
    refine List.mem_flatMap.mpr ⟨bpc, hbpc, ?_⟩
    simp only [List.map_append, List.mem_append]
    rcases hxbpc with hxbpc | hxbpc
    · exact Or.inl (collectInsts_replace_sub _ _ hrepl _ _ hxbpc)
    · exact Or.inr (collectInsts_replace_sub _ _ hrepl _ _ hxbpc)

/-- Substituting one node by a fresh variable cannot increase the
reachable-node count: the substituted rule's node set is covered by
the image of the original node set. -/
theorem nodeCount_replaceRule_le (tgt : Inst) (nm : String) (w : Nat)
    (r : ParsedReplacement) :
    nodeCount (replaceRule tgt (Inst.var nm w) r) ≤ nodeCount r := by
  unfold nodeCount
  have hsub : (ruleInsts (replaceRule tgt (Inst.var nm w) r)).toFinset ⊆
      (ruleInsts r).toFinset.image (replaceInst tgt (Inst.var nm w)) := by
    intro x hx
    rw [List.mem_toFinset] at hx
    have hmem := mem_ruleInsts_replaceRule tgt nm w r x hx
    rcases List.mem_map.mp hmem with ⟨a, ha, hax⟩
    exact Finset.mem_image.mpr ⟨a, List.mem_toFinset.mpr ha, hax⟩
  calc (ruleInsts (replaceRule tgt (Inst.var nm w) r)).toFinset.card
      ≤ ((ruleInsts r).toFinset.image (replaceInst tgt (Inst.var nm w))).card :=
        Finset.card_le_card hsub
    _ ≤ (ruleInsts r).toFinset.card := Finset.card_image_le

/-- One substitution step of the reducer: `r` replaces, in `input`,
one collected node that is not the left root, not the right root,
not a `Var` and not a `Const`, by a variable of the same width. -/
def IsReductionVariant (input r : ParsedReplacement) : Prop :=
  ∃ tgt nm, tgt ∈ (ruleInsts input).dedup ∧
    tgt ≠ input.Mapping.LHS ∧ tgt ≠ input.Mapping.RHS ∧
    tgt.isVar = false ∧ tgt.isConst = false ∧
    r = replaceRule tgt (Inst.var nm tgt.width) input

/-- What holds of a rule the reducer records, relative to a bound `n`
on reachable-node counts: the validity flag computed from the
solver's answer was true for that exact rule, the rule's node count
is within the bound, and the rule is a one-node reduction variant of
some rule within the bound. -/
def RecordedOk (S : SolverOracle) (u : Bool) (n : Nat) (r : ParsedReplacement) : Prop :=
  validFlag S u r = true ∧ nodeCount r ≤ n ∧
    ∃ prev, IsReductionVariant prev r ∧ nodeCount prev ≤ n

theorem RecordedOk.mono {S : SolverOracle} {u : Bool} {n m : Nat}
    {r : ParsedReplacement} (h : RecordedOk S u n r) (hnm : n ≤ m) :
    RecordedOk S u m r := by
  obtain ⟨h1, h2, prev, h3, h4⟩ := h
  exact ⟨h1, h2.trans hnm, prev, h3, h4.trans hnm⟩

theorem reduceLoop_results_spec (S : SolverOracle) (u : Bool)
    (recur : ParsedReplacement → RState → RState) (input : ParsedReplacement)
    (hrec : ∀ inp st r, r ∈ (recur inp st).results →
      r ∈ st.results ∨ RecordedOk S u (nodeCount inp) r) :
    ∀ (l : List Inst), (∀ I ∈ l, I ∈ (ruleInsts input).dedup) →
      ∀ (st : RState), ∀ r ∈ (reduceLoop S u recur input l st).results,
        r ∈ st.results ∨ RecordedOk S u (nodeCount input) r := by
  intro l
  induction l with
  | nil => intro _ st r hr; exact Or.inl hr
  | cons I rest ih =>
    intro hl st r hr
    have hlrest : ∀ J ∈ rest, J ∈ (ruleInsts input).dedup := by
      intro J hJ; exact hl J (List.mem_cons_of_mem _ hJ)
    have hI : I ∈ (ruleInsts input).dedup := hl I (List.mem_cons_self I rest)
    rw [reduceLoop] at hr
    by_cases hskip : I = input.Mapping.LHS ∨ I = input.Mapping.RHS ∨
        I.isVar ∨ I.isConst
    · rw [if_pos hskip] at hr
      exact ih hlrest st r hr
    · rw [if_neg hskip] at hr
      push_neg at hskip
      obtain ⟨h1, h2, h3, h4⟩ := hskip
      have hvcount : nodeCount (replaceRule I
          (Inst.var ("newvar" ++ toString st.varnum) I.width) input) ≤ nodeCount input :=
        nodeCount_replaceRule_le I _ I.width input
      by_cases hvalid : validFlag S u (replaceRule I
          (Inst.var ("newvar" ++ toString st.varnum) I.width) input) = true
      · rw [if_pos hvalid] at hr
        rcases ih hlrest _ r hr with hr' | hr'
        · rcases hrec _ _ _ hr' with hr'' | hr''
          · simp only [List.mem_append, List.mem_singleton] at hr''
            rcases hr'' with hr'' | hr''
            · exact Or.inl hr''
            · subst hr''
              refine Or.inr ⟨hvalid, hvcount, input, ?_, le_refl _⟩
              exact ⟨I, "newvar" ++ toString st.varnum, hI, h1, h2,
                by simpa using h3, by simpa using h4, rfl⟩
          · exact Or.inr (hr''.mono hvcount)
        · exact Or.inr hr'
      · rw [if_neg hvalid] at hr
        rcases ih hlrest _ r hr with h | h
        · exact Or.inl h
        · exact Or.inr h

theorem reduceRec_results_spec (S : SolverOracle) (u : Bool) :
    ∀ (fuel : Nat) (input : ParsedReplacement) (st : RState),
      ∀ r ∈ (reduceRec S u fuel input st).results,
        r ∈ st.results ∨ RecordedOk S u (nodeCount input) r := by
  intro fuel
  induction fuel with
  | zero => intro input st r hr; exact Or.inl hr
  | succ fuel ih =>
    intro input st r hr
    rw [reduceRec] at hr
    by_cases hdnr : input ∈ st.dnr
    · rw [if_pos hdnr] at hr
      exact Or.inl hr
    · rw [if_neg hdnr] at hr
      by_cases hbase : ((ruleInsts input).dedup).length ≤ 1
      · rw [if_pos hbase] at hr
        exact Or.inl hr
      · rw [if_neg hbase] at hr
        rcases reduceLoop_results_spec S u _ input ih _ (fun I hI => hI) _ r hr with h | h
        · exact Or.inl h
        · exact Or.inr h

/-- C6 (amended): provided every solver query returns an answer (no
solver error), every rule recorded as a result by the reducer
received a 'valid' answer from the solver for that exact variant;
each recorded rule is a variant built by substituting one collected
node — not the LHS or RHS root, not a `Var`, not a `Const` — of some
intermediate rule with a variable of the same width, and its
reachable-node count is at most the input's. -/
theorem reducer_soundness_amended (S : SolverOracle) (u : Bool) (fuel : Nat)
    (input : ParsedReplacement) (hS : ∀ q, S q ≠ none) :
    ∀ r ∈ reduceAndGeneralize S u fuel input,
      S r = some true ∧ nodeCount r ≤ nodeCount input ∧
        ∃ prev, IsReductionVariant prev r ∧ nodeCount prev ≤ nodeCount input := by
  intro r hr
  unfold reduceAndGeneralize at hr
  by_cases hv : validFlag S u input = true
  · rw [if_pos hv] at hr
    rcases reduceRec_results_spec S u fuel input _ r hr with h | h
    · exact absurd h (List.not_mem_nil r)
    · obtain ⟨hflag, hcount, prev, hvar, hprev⟩ := h
      refine ⟨?_, hcount, prev, hvar, hprev⟩
      cases hSr : S r with
      | none => exact absurd hSr (hS r)
      | some b =>
        unfold validFlag at hflag
        rw [hSr] at hflag
        simp only [Option.getD_some] at hflag
        rw [hflag]
  · rw [if_neg hv] at hr
    exact absurd hr (List.not_mem_nil r)

/-- Witness for the amended C6 theorem: the never-erring solver
satisfies the hypothesis, so every result of reducing `inputAnd3`
under it is solver-validated, variant-shaped and no larger. -/
theorem reducer_soundness_amended_witness :
    (∀ q, trueOracle q ≠ none) ∧
      ∀ r ∈ reduceAndGeneralize trueOracle false 3 inputAnd3,
        trueOracle r = some true ∧ nodeCount r ≤ nodeCount inputAnd3 ∧
          ∃ prev, IsReductionVariant prev r ∧ nodeCount prev ≤ nodeCount inputAnd3 :=
  ⟨fun _ h => Option.noConfusion h,
   reducer_soundness_amended trueOracle false 3 inputAnd3 (fun _ h => Option.noConfusion h)⟩

/-- C6 (counterexample to the claim as stated): with a solver that
reports an error on every query and the indeterminate flag reading
true, the reducer records a rule whose own validity query was never
answered 'valid'. -/
theorem reducer_soundness_cex :
    variantAnd3 ∈ reduceAndGeneralize errOracle true 3 inputAnd3 ∧
      errOracle variantAnd3 ≠ some true := by
  exact ⟨by decide, by decide⟩

/-- C7 (amended): the reducer checks its input's validity once up
front; if that check answers 'invalid' the whole procedure aborts
with no reduced rules; it proceeds to reduction only when the flag it
reads is true — which is a 'valid' answer when the query is answered,
but on a solver error is the indeterminate flag, so an unverified
rule may be reduced. -/
theorem reduce_precheck_amended (S : SolverOracle) (u : Bool) (fuel : Nat)
    (input : ParsedReplacement) :
    (S input = some false → reduceAndGeneralize S u fuel input = []) ∧
    (reduceAndGeneralize S u fuel input ≠ [] → validFlag S u input = true) := by
  constructor
  · intro h
    have hv : validFlag S u input = false := by
      unfold validFlag; rw [h]; rfl
    unfold reduceAndGeneralize
    rw [if_neg ?_]
    rw [hv]
    exact Bool.false_ne_true
  · intro h
    by_cases hv : validFlag S u input = true
    · exact hv
    · exfalso
      apply h
      unfold reduceAndGeneralize
      rw [if_neg hv]

/-- Witness for the amended C7 theorem: a solver answering 'invalid'
on the up-front check makes the reducer emit nothing. -/
theorem reduce_precheck_amended_witness :
    falseOracle inputAnd3 = some false ∧
      reduceAndGeneralize falseOracle true 3 inputAnd3 = [] :=
  ⟨rfl, (reduce_precheck_amended falseOracle true 3 inputAnd3).1 rfl⟩

/-- C7 (counterexample to the claim as stated): with a solver that
errors on every query and the indeterminate flag reading true, the
reducer attempts to reduce — and emits a result for — a rule whose
up-front validity check was never answered. -/
theorem reduce_precheck_cex :
    errOracle inputAnd3 = none ∧
      reduceAndGeneralize errOracle true 3 inputAnd3 = [variantAnd3] :=
  ⟨rfl, by decide⟩

/-- C4 (code bug, evaluated): a solver error during `ReduceRec`'s
validity queries does not abort the reducer's search.  On `inputTwo`
the loop reaches the `or`-substituting variant first and its query
errors; with the indeterminate `Valid` flag reading false the search
continues exactly as if the query had answered 'invalid' and still
emits the later `xor`-substituting variant, and with the flag reading
true it records the errored, unverified variant itself — the output
depends on an uninitialized value.  The claim (and the spec) require
the single solver error to abort the current search and be propagated
to the caller. -/
theorem solver_error_continues_search :
    oracleTwo variantTwoA = none ∧
    reduceAndGeneralize oracleTwo false 3 inputTwo = [variantTwoB] ∧
    reduceAndGeneralize oracleTwo true 3 inputTwo = [variantTwoA] :=
  ⟨by decide, by decide, by decide⟩

theorem utilities_getD (gs : List (Option Inst))
    (ps : List (List (List (String × KnownBits)))) (i : Nat) (hi : i < gs.length) :
    (utilities gs ps).getD i 0 = candUtility (gs.getD i none) (ps.getD i []) := by
  unfold utilities
  rw [List.getD_eq_getElem?_getD, List.getElem?_map, List.getElem?_range hi]
  rfl

theorem mem_rankIdx (gs : List (Option Inst))
    (ps : List (List (List (String × KnownBits)))) (i : Nat) :
    i ∈ rankIdx gs ps ↔ i < gs.length := by
  unfold rankIdx
  rw [(List.perm_insertionSort _ _).mem_iff, List.mem_range]

/-- C1 (amended): for scored candidates A (unconditionally valid:
non-null guess, empty inferred precondition list) and B (conditional:
non-null guess, non-empty precondition list), A ranks strictly above
B in the descending-by-utility order whenever B's accumulated
precondition utility stays below the magic constant 1000 — A's
utility is exactly 1000, while without that bound a loose, wide or
many-disjunct precondition can outscore it. -/
theorem ranking_monotonicity_amended (gs : List (Option Inst))
    (ps : List (List (List (String × KnownBits)))) (iA iB pA pB : Nat)
    (hgA : (gs.getD iA none).isSome = true) (hgB : (gs.getD iB none).isSome = true)
    (hpA : (ps.getD iA []).isEmpty = true) (hpB : (ps.getD iB []).isEmpty = false)
    (hsum : preUtility (ps.getD iB []) < 1000)
    (hA : pA < (rankIdx gs ps).length) (hB : pB < (rankIdx gs ps).length)
    (hgetA : (rankIdx gs ps).get ⟨pA, hA⟩ = iA)
    (hgetB : (rankIdx gs ps).get ⟨pB, hB⟩ = iB) :
    pA < pB := by
  have hiA : iA < gs.length := by
    rw [← mem_rankIdx gs ps iA, ← hgetA]
    exact List.get_mem _ _ _
  have hiB : iB < gs.length := by
    rw [← mem_rankIdx gs ps iB, ← hgetB]
    exact List.get_mem _ _ _
  have huA : (utilities gs ps).getD iA 0 = 1000 := by
    rw [utilities_getD gs ps iA hiA]
    obtain ⟨g, hg⟩ := Option.isSome_iff_exists.mp hgA
    rw [hg]
    unfold candUtility
    rw [List.isEmpty_iff.mp hpA]
    simp [preUtility]
  have huB : (utilities gs ps).getD iB 0 < 1000 := by
    rw [utilities_getD gs ps iB hiB]
    obtain ⟨g, hg⟩ := Option.isSome_iff_exists.mp hgB
    rw [hg]
    unfold candUtility
    simp only [hpB, Bool.false_eq_true, if_false, Nat.zero_add]
    exact hsum
  have hne : iA ≠ iB := by
    intro h
    rw [h] at huA
    omega
  by_contra hle
  push_neg at hle
  have hpne : pB ≠ pA := by
    intro h
    apply hne
    rw [← hgetA, ← hgetB]
    congr 1
    exact (Fin.mk_eq_mk.mpr h).symm
  have hlt : pB < pA := lt_of_le_of_ne hle hpne
  have hsort : (rankIdx gs ps).Sorted (rankRel (utilities gs ps)) :=
    List.sorted_insertionSort _ _
  have hrel := hsort.rel_get_of_lt (a := ⟨pB, hB⟩) (b := ⟨pA, hA⟩) hlt
  rw [hgetA, hgetB] at hrel
  unfold rankRel at hrel
  omega

/-- Witness for the amended C1 theorem: on `gsRank`/`psSmall` the
unconditional candidate 0 sorts before the conditional candidate 1. -/
theorem ranking_monotonicity_amended_witness :
    ((gsRank.getD 0 none).isSome = true ∧ (gsRank.getD 1 none).isSome = true ∧
      (psSmall.getD 0 []).isEmpty = true ∧ (psSmall.getD 1 []).isEmpty = false ∧
      preUtility (psSmall.getD 1 []) < 1000 ∧ rankIdx gsRank psSmall = [0, 1]) ∧
    (0 : Nat) < 1 :=
  ⟨⟨by decide, by decide, by decide, by decide, by decide, by decide⟩,
   ranking_monotonicity_amended gsRank psSmall 0 1 0 1 (by decide) (by decide)
     (by decide) (by decide) (by decide) (by decide) (by decide) (by decide) (by decide)⟩

/-- C1 (counterexample to the claim as stated): candidate 0 is
unconditionally valid (utility 1000) and candidate 1 is conditional,
yet its eight wide no-bits-pinned disjuncts score 1024, so the
descending sort ranks the conditional candidate strictly above the
unconditional one. -/
theorem ranking_monotonicity_cex :
    (psRank.getD 0 []).isEmpty = true ∧ (psRank.getD 1 []).isEmpty = false ∧
    (gsRank.getD 0 none).isSome = true ∧ (gsRank.getD 1 none).isSome = true ∧
    utilities gsRank psRank = [1000, 1024] ∧
    rankIdx gsRank psRank = [1, 0] := by
  decide

/-- C2 (confirmed): the utility of a scored candidate that survived
inference is the fixed constant 1000 when its inferred precondition
list is empty, and otherwise the sum, over every disjunct and every
constrained variable, of (width minus the popcount of the known-zero
mask) plus (width minus the popcount of the known-one mask); the
index order the driver emits from is sorted by descending utility. -/
theorem utility_function_spec (gs : List (Option Inst))
    (ps : List (List (List (String × KnownBits))))
    (g : Option Inst) (pres : List (List (String × KnownBits)))
    (hg : g.isSome = true) :
    candUtility g pres =
      (if pres.isEmpty then 1000
       else (pres.map fun d => (d.map fun p =>
          (p.2.width - popCount p.2.zero) + (p.2.width - popCount p.2.one)).sum).sum) ∧
    (rankIdx gs ps).Sorted (rankRel (utilities gs ps)) := by
  constructor
  · obtain ⟨g', rfl⟩ := Option.isSome_iff_exists.mp hg
    by_cases hp : pres.isEmpty = true
    · rw [List.isEmpty_iff.mp hp]
      simp [candUtility, preUtility]
    · have hp' : pres.isEmpty = false := by simpa using hp
      simp [candUtility, preUtility, kbUtility, hp']
  · exact List.sorted_insertionSort _ _

/-- Witness for the C2 theorem, instantiated at the wide conditional
precondition. -/
theorem utility_function_spec_witness :
    (some (Inst.var "g1" 64) : Option Inst).isSome = true ∧
      (candUtility (some (.var "g1" 64)) presWide =
        (if presWide.isEmpty then 1000
         else (presWide.map fun d => (d.map fun p =>
            (p.2.width - popCount p.2.zero) + (p.2.width - popCount p.2.one)).sum).sum) ∧
       (rankIdx gsRank psRank).Sorted (rankRel (utilities gsRank psRank))) :=
  ⟨by decide, utility_function_spec gsRank psRank (some (.var "g1" 64)) presWide (by decide)⟩

/-- C3 (confirmed): in the precondition-inference path, a candidate
index is emitted into the results iff it is in range, its inferred
known-bits precondition list is empty and its guess survived
inference (non-null); candidates with a non-empty precondition are
scored but never emitted. -/
theorem emission_only_unconditional (gs : List (Option Inst))
    (ps : List (List (List (String × KnownBits)))) (i : Nat) :
    i ∈ emittedIdx gs ps ↔
      i < gs.length ∧ (ps.getD i []).isEmpty = true ∧ (gs.getD i none).isSome = true := by
  unfold emittedIdx
  rw [List.mem_filter, mem_rankIdx]
  simp [Bool.and_eq_true]

theorem applyKB_structural (y : String) :
    ∀ (d : List (String × KnownBits)) (store : String → StoredInst),
      ((applyKB store d) y).name = (store y).name ∧
        ((applyKB store d) y).width = (store y).width
  | [], _ => ⟨rfl, rfl⟩
  | p :: rest, store => by
      have ih := applyKB_structural y rest (fun z =>
        if z = p.1 then { store z with knownOnes := p.2.one, knownZeros := p.2.zero }
        else store z)
      rw [applyKB]
      refine ⟨ih.1.trans ?_, ih.2.trans ?_⟩ <;> by_cases h : y = p.1 <;> simp [h]

theorem applyKB_untouched (y : String) :
    ∀ (d : List (String × KnownBits)) (store : String → StoredInst),
      y ∉ d.map Prod.fst → applyKB store d y = store y
  | [], _, _ => rfl
  | p :: rest, store, h => by
      simp only [List.map_cons, List.mem_cons, not_or] at h
      rw [applyKB]
      rw [applyKB_untouched y rest _ h.2]
      simp [h.1]

theorem applyKBs_structural (y : String) :
    ∀ (ds : List (List (String × KnownBits))) (store : String → StoredInst),
      ((applyKBs store ds) y).name = (store y).name ∧
        ((applyKBs store ds) y).width = (store y).width
  | [], _ => ⟨rfl, rfl⟩
  | d :: ds, store => by
      have ih := applyKBs_structural y ds (applyKB store d)
      have h1 := applyKB_structural y d store
      rw [applyKBs]
      exact ⟨ih.1.trans h1.1, ih.2.trans h1.2⟩

theorem applyKBs_untouched (y : String) :
    ∀ (ds : List (List (String × KnownBits))) (store : String → StoredInst),
      y ∉ ds.flatMap (fun d => d.map Prod.fst) → applyKBs store ds y = store y
  | [], _, _ => rfl
  | d :: ds, store, h => by
      simp only [List.flatMap_cons, List.mem_append, not_or] at h
      rw [applyKBs]
      rw [applyKBs_untouched y ds _ h.2]
      exact applyKB_untouched y d store h.1

theorem applyCR_structural (y : String) :
    ∀ (d : List (String × (Nat × Nat))) (store : String → StoredInst),
      ((applyCR store d) y).name = (store y).name ∧
        ((applyCR store d) y).width = (store y).width
  | [], _ => ⟨rfl, rfl⟩
  | p :: rest, store => by
      have ih := applyCR_structural y rest (fun z =>
        if z = p.1 then { store z with rangeLo := p.2.1, rangeHi := p.2.2 }
        else store z)
      rw [applyCR]
      refine ⟨ih.1.trans ?_, ih.2.trans ?_⟩ <;> by_cases h : y = p.1 <;> simp [h]

theorem applyCR_untouched (y : String) :
    ∀ (d : List (String × (Nat × Nat))) (store : String → StoredInst),
      y ∉ d.map Prod.fst → applyCR store d y = store y
  | [], _, _ => rfl
  | p :: rest, store, h => by
      simp only [List.map_cons, List.mem_cons, not_or] at h
      rw [applyCR]
      rw [applyCR_untouched y rest _ h.2]
      simp [h.1]

theorem applyCRs_structural (y : String) :
    ∀ (ds : List (List (String × (Nat × Nat)))) (store : String → StoredInst),
      ((applyCRs store ds) y).name = (store y).name ∧
        ((applyCRs store ds) y).width = (store y).width
  | [], _ => ⟨rfl, rfl⟩
  | d :: ds, store => by
      have ih := applyCRs_structural y ds (applyCR store d)
      have h1 := applyCR_structural y d store
      rw [applyCRs]
      exact ⟨ih.1.trans h1.1, ih.2.trans h1.2⟩

theorem applyCRs_untouched (y : String) :
    ∀ (ds : List (List (String × (Nat × Nat)))) (store : String → StoredInst),
      y ∉ ds.flatMap (fun d => d.map Prod.fst) → applyCRs store ds y = store y
  | [], _, _ => rfl
  | d :: ds, store, h => by
      simp only [List.flatMap_cons, List.mem_append, not_or] at h
      rw [applyCRs]
      rw [applyCRs_untouched y ds _ h.2]
      exact applyCR_untouched y d store h.1

/-- C5 (amended): no operation mutates the structural fields (name,
width — and a fortiori kind and operands, which the fact application
never touches) of an existing interned node, and variables not named
in the inferred results are left entirely unchanged; however the
fixit path (`Generalize`) does write the `KnownOnes`/`KnownZeros`
masks and the `Range` field of the variables named in the inferred
precondition in place. -/
theorem generalize_preserves_structure (store : String → StoredInst) (FoundWP : Bool)
    (KBResults : List (List (String × KnownBits)))
    (CRResults : List (List (String × (Nat × Nat)))) (y : String) :
    ((generalizeFacts store FoundWP KBResults CRResults) y).name = (store y).name ∧
    ((generalizeFacts store FoundWP KBResults CRResults) y).width = (store y).width ∧
    (y ∉ KBResults.flatMap (fun d => d.map Prod.fst) →
      y ∉ CRResults.flatMap (fun d => d.map Prod.fst) →
      (generalizeFacts store FoundWP KBResults CRResults) y = store y) := by
  unfold generalizeFacts
  split_ifs with h1 h2 h3
  · exact ⟨rfl, rfl, fun _ _ => rfl⟩
  · exact ⟨(applyKBs_structural y KBResults store).1,
      (applyKBs_structural y KBResults store).2,
      fun hkb _ => applyKBs_untouched y KBResults store hkb⟩
  · exact ⟨(applyCRs_structural y CRResults store).1,
      (applyCRs_structural y CRResults store).2,
      fun _ hcr => applyCRs_untouched y CRResults store hcr⟩
  · exact ⟨rfl, rfl, fun _ _ => rfl⟩

/-- Witness for the amended C5 theorem: a variable not named in the
inferred results is unchanged by the fact application. -/
theorem generalize_preserves_structure_witness :
    ("z" ∉ ([[("x", kbPin)]].flatMap fun d => d.map Prod.fst) ∧
      "z" ∉ (([] : List (List (String × (Nat × Nat)))).flatMap fun d => d.map Prod.fst)) ∧
      (generalizeFacts store0 true [[("x", kbPin)]] []) "z" = store0 "z" :=
  ⟨⟨by decide, by decide⟩,
   (generalize_preserves_structure store0 true [[("x", kbPin)]] [] "z").2.2
     (by decide) (by decide)⟩

/-- C5 (counterexample to the claim as stated): the fixit path
(`Generalize`) mutates an existing interned node of the input:
applying one inferred known-bits disjunct writes variable `x`'s
`KnownOnes` mask in place, so the node is not unchanged afterwards. -/
theorem inst_immutability_cex :
    (generalizeFacts store0 true [[("x", kbPin)]] []) "x" ≠ store0 "x" ∧
    ((generalizeFacts store0 true [[("x", kbPin)]] []) "x").knownOnes ≠
      (store0 "x").knownOnes :=
  ⟨by decide, by decide⟩

/-- C8 (confirmed): `InferWidth` returns the first operand's width
for the six bitwise/arithmetic operators and/or/xor/sub/mul/add,
returns width 1 for the four handled comparison operators
slt/sle/ult/ule, and on any other (unimplemented) operator fails fast
(`llvm_unreachable`, modelled as `none`) rather than returning a
width. -/
theorem inferWidth_spec (K : InstKind) (Ops : List Inst) (a : Inst) (rest : List Inst) :
    ((K = .and ∨ K = .or ∨ K = .xor ∨ K = .sub ∨ K = .mul ∨ K = .add) →
      InferWidth K (a :: rest) = some a.width) ∧
    ((K = .slt ∨ K = .sle ∨ K = .ult ∨ K = .ule) → InferWidth K Ops = some 1) ∧
    (¬(K = .and ∨ K = .or ∨ K = .xor ∨ K = .sub ∨ K = .mul ∨ K = .add ∨
        K = .slt ∨ K = .sle ∨ K = .ult ∨ K = .ule) → InferWidth K Ops = none) := by
  cases K <;> simp [InferWidth]

/-- Witness for the C8 theorem: the shift operator is unimplemented
in the width rule and fails fast. -/
theorem inferWidth_spec_witness :
    (¬(InstKind.shl = .and ∨ InstKind.shl = .or ∨ InstKind.shl = .xor ∨
        InstKind.shl = .sub ∨ InstKind.shl = .mul ∨ InstKind.shl = .add ∨
        InstKind.shl = .slt ∨ InstKind.shl = .sle ∨ InstKind.shl = .ult ∨
        InstKind.shl = .ule)) ∧
      InferWidth .shl [xVar] = none :=
  ⟨by decide, (inferWidth_spec .shl [xVar] xVar []).2.2 (by decide)⟩

theorem widthsLoop_spec (v lhs rhs : Inst) :
    ∀ (count : Nat), ∀ (start : Nat) (l : List (Inst × Inst)),
      widthsLoop v lhs rhs count start = some l →
      l.length = count ∧ ∀ j, j < count →
        CloneInst [(v, start + j)] lhs = some (l.getD j (v, v)).1 ∧
        CloneInst [(v, start + j)] rhs = some (l.getD j (v, v)).2 := by
  intro count
  induction count with
  | zero =>
    intro start l h
    rw [widthsLoop] at h
    injection h with h
    subst h
    exact ⟨rfl, fun j hj => absurd hj (Nat.not_lt_zero j)⟩
  | succ n ih =>
    intro start l h
    rw [widthsLoop] at h
    cases hcl : CloneInst [(v, start)] lhs with
    | none => rw [hcl] at h; exact Option.noConfusion h
    | some cl =>
      rw [hcl] at h
      cases hcr : CloneInst [(v, start)] rhs with
      | none => rw [hcr] at h; exact Option.noConfusion h
      | some cr =>
        rw [hcr] at h
        cases hwl : widthsLoop v lhs rhs n (start + 1) with
        | none => rw [hwl] at h; exact Option.noConfusion h
        | some rest =>
          rw [hwl] at h
          injection h with h
          subst h
          obtain ⟨hlen, htail⟩ := ih (start + 1) rest hwl
          refine ⟨by simp [hlen], ?_⟩
          intro j hj
          cases j with
          | zero => simpa using ⟨hcl, hcr⟩
          | succ j' =>
            have := htail j' (by omega)
            rw [show start + (j' + 1) = start + 1 + j' by omega]
            simpa using this

/-- C9 (confirmed): `GeneralizeBitWidth` never consults the solver
(its result is independent of the solver argument, which the source
takes but never uses — no validity is re-checked at any width); it
fails fast unless the rule's left side has exactly one distinct
variable; and a successful run re-instantiates the rule's two sides
with `CloneInst` — re-applying the per-opcode width rule — at every
width from 1 to 63 inclusive, in order. -/
theorem generalizeBitWidth_spec (S S' : SolverOracle) (input : ParsedReplacement) :
    GeneralizeBitWidth S input = GeneralizeBitWidth S' input ∧
    ((getVariablesFor input.Mapping.LHS).length ≠ 1 → GeneralizeBitWidth S input = none) ∧
    (∀ v l, getVariablesFor input.Mapping.LHS = [v] →
      GeneralizeBitWidth S input = some l →
      l.length = 63 ∧ ∀ j, j < 63 →
        CloneInst [(v, 1 + j)] input.Mapping.LHS = some (l.getD j (v, v)).1 ∧
        CloneInst [(v, 1 + j)] input.Mapping.RHS = some (l.getD j (v, v)).2) := by
  refine ⟨rfl, ?_, ?_⟩
  · intro h
    unfold GeneralizeBitWidth
    cases hv : getVariablesFor input.Mapping.LHS with
    | nil => rfl
    | cons a rest =>
      cases rest with
      | nil => exact absurd (by rw [hv]; rfl) h
      | cons b rest2 => rfl
  · intro v l hv hsome
    unfold GeneralizeBitWidth at hsome
    rw [hv] at hsome
    exact widthsLoop_spec v _ _ 63 1 l hsome

/-- Witness for the C9 theorem: a two-variable left side makes the
width generalizer fail fast. -/
theorem generalizeBitWidth_spec_witness :
    (getVariablesFor inputTwoVars.Mapping.LHS).length ≠ 1 ∧
      GeneralizeBitWidth trueOracle inputTwoVars = none :=
  ⟨by decide, (generalizeBitWidth_spec trueOracle trueOracle inputTwoVars).2.1 (by decide)⟩

mutual

theorem cloneInst_hasConst (wm : List (Inst × Nat)) :
    ∀ (i : Inst), hasConst i = true → CloneInst wm i = none
  | .var n w => by simp [hasConst]
  | .const v w => by intro _; rfl
  | .node k w ops => by
      intro h
      rw [hasConst] at h
      have hlist := cloneInstList_hasConst wm ops h
      rw [CloneInst, hlist]

theorem cloneInstList_hasConst (wm : List (Inst × Nat)) :
    ∀ (l : List Inst), hasConstList l = true → CloneInstList wm l = none
  | [] => by simp [hasConstList]
  | o :: os => by
      intro h
      rw [hasConstList, Bool.or_eq_true] at h
      rcases h with h | h
      · rw [CloneInstList, cloneInst_hasConst wm o h]
      · have hos := cloneInstList_hasConst wm os h
        cases hco : CloneInst wm o with
        | none => rw [CloneInstList, hco]
        | some a => rw [CloneInstList, hco, hos]

end

theorem widthsLoop_none (v lhs rhs : Inst) (n i : Nat)
    (h : CloneInst [(v, i)] lhs = none ∨ CloneInst [(v, i)] rhs = none) :
    widthsLoop v lhs rhs (n + 1) i = none := by
  rcases h with h | h
  · rw [widthsLoop, h]
  · rw [widthsLoop]
    cases hcl : CloneInst [(v, i)] lhs with
    | none => rfl
    | some cl => rw [h]

/-- C10 (confirmed): for every input rule whose left or right side
contains a `Const` leaf anywhere, `CloneInst` hits its unreachable
`Const` case, so `GeneralizeBitWidth` aborts without producing
re-instantiated rules — width generalization succeeds only on
constant-free rules. -/
theorem generalizeBitWidth_const_aborts (S : SolverOracle) (input : ParsedReplacement)
    (h : hasConst input.Mapping.LHS = true ∨ hasConst input.Mapping.RHS = true) :
    GeneralizeBitWidth S input = none := by
  unfold GeneralizeBitWidth
  cases hv : getVariablesFor input.Mapping.LHS with
  | nil => rfl
  | cons a rest =>
    cases rest with
    | cons b rest2 => rfl
    | nil =>
      rcases h with h | h
      · exact widthsLoop_none a _ _ 62 1 (Or.inl (cloneInst_hasConst [(a, 1)] _ h))
      · exact widthsLoop_none a _ _ 62 1 (Or.inr (cloneInst_hasConst [(a, 1)] _ h))

/-- Witness for the C10 theorem: a rule with a constant on the left
side makes the width generalizer abort. -/
theorem generalizeBitWidth_const_aborts_witness :
    (hasConst inputConst.Mapping.LHS = true ∨ hasConst inputConst.Mapping.RHS = true) ∧
      GeneralizeBitWidth trueOracle inputConst = none :=
  ⟨Or.inl (by decide),
   generalizeBitWidth_const_aborts trueOracle inputConst (Or.inl (by decide))⟩

end Souper
